import Mathlib

/-!
# Verification of the `link-replication` core (radicle-link)

A shallow embedding of the parts of the `radicle-link` replication engine that
the specification's claims talk about, together with proofs settling each claim.

Conventions of the embedding:

* `PeerId`, `Oid` and `Urn` are modelled as `Nat` (opaque identifiers; the code
  only compares them for equality / set membership).
* A git reference name is a list of path components (`RName`).  A component is
  either a plain string or an embedded peer id: peer ids render as one path
  component whose textual form never collides with the short literals
  (`refs`, `remotes`, `namespaces`, `rad`, …), which the inductive split makes
  exact.
* Fallible operations return `Except`; Rust panics (`expect`, `debug_assert`)
  are modelled with an explicit `panicked`-style constructor where a claim
  depends on them.
* Rust `BTreeMap`/`HashMap` values are modelled as association lists with
  insert-overwrite (`setEntry`), `BTreeSet` unions as duplicate-free list
  insertion (`insertRemotes`).
-/

namespace Link

/-- A peer id (public key).  Opaque: only compared for equality. -/
abbrev PeerId := Nat

/-- A git object id. -/
abbrev Oid := Nat

/-- A URN (identity identifier).  Opaque. -/
abbrev Urn := Nat

/-- One path component of a reference name: either a literal string or a peer
id rendered as its (injective) textual encoding.  Peer-id components never
equal the short literals `"refs"`, `"remotes"`, `"namespaces"`, … which the
type distinction makes exact. -/
inductive Comp : Type
  | str (s : String)
  | pid (p : PeerId)
deriving DecidableEq

/-- A reference name, as its list of path components
(`refs/heads/main ↦ [str "refs", str "heads", str "main"]`). -/
abbrev RName := List Comp

/-- `git-ref-format`: a refname is qualified iff it starts with `refs/` and has
at least three components (`Qualified::from_refstr`). -/
def isQualified (n : RName) : Bool :=
  match n with
  | .str "refs" :: _ :: _ :: _ => true
  | _ => false

/-- `git-ref-format` `Namespaced` check: a ref is namespaced iff it starts with
`refs/namespaces/<ns>/refs/…` (`From<&RefStr> for Option<Namespaced>`). -/
def isNamespaced (n : RName) : Bool :=
  match n with
  | .str "refs" :: .str "namespaces" :: _ :: .str "refs" :: _ => true
  | _ => false

lemma isNamespaced_length {n : RName} (h : isNamespaced n = true) : 4 ≤ n.length := by
  unfold isNamespaced at h
  split at h
  · simp only [List.length_cons]
    omega
  · simp at h

/-- `Namespaced::strip_namespace`: drop `refs/namespaces/<ns>` (the first three
components).  Only meaningful on namespaced names. -/
def stripNamespace (n : RName) : RName := n.drop 3

/-- `Namespaced::strip_namespace_recursive`: strip one namespace layer, then
keep stripping while the result is still namespaced. -/
def stripNamespaceRecursive (n : RName) : RName :=
  if h : isNamespaced (stripNamespace n) then stripNamespaceRecursive (stripNamespace n)
  else stripNamespace n
termination_by n.length
decreasing_by
  have h4 := isNamespaced_length h
  simp only [stripNamespace, List.length_drop] at *
  omega

theorem stripNamespaceRecursive_le (n : RName) :
    (stripNamespaceRecursive n).length ≤ n.length - 3 := by
  unfold stripNamespaceRecursive
  split
  · next h =>
      have h4 := isNamespaced_length h
      have ih := stripNamespaceRecursive_le (stripNamespace n)
      simp only [stripNamespace, List.length_drop] at *
      omega
  · simp [stripNamespace, List.length_drop]
termination_by n.length
decreasing_by
  rename_i h
  have h4 := isNamespaced_length h
  simp only [stripNamespace, List.length_drop] at h4 ⊢
  omega

lemma stripNamespaceRecursive_length {n : RName} (h : isNamespaced n = true) :
    (stripNamespaceRecursive n).length < n.length := by
  have h4 := isNamespaced_length h
  have hle := stripNamespaceRecursive_le n
  omega

/-- Result of `refs::scoped::remote_tracking`.  `found` is the `Some` case,
`reject` the `None` case; `panicked` marks the inputs on which the source
panics (`name.namespaced().expect("name is namespaced")` when the second
component is `namespaces` but the name is not properly namespaced). -/
inductive RTRes : Type
  | found (n : RName)
  | reject
  | panicked
deriving DecidableEq

/-- `refs::scoped::remote_tracking` (scoped.rs): ensure `name` is a remote
tracking branch of `remote_id`.

* `refs/remotes/<any>/<cat>/<name>/…` replaces `<any>` by the peer;
* `refs/namespaces/…` strips all namespaces and recurses;
* otherwise (`refs/<cat>/<name>/…`) prepends `refs/remotes/<peer>/`;
* inputs that miss the category (or the component after it) are rejected. -/
def remote_tracking (p : PeerId) (n : RName) : RTRes :=
  match n with
  | .str "refs" :: .str "remotes" :: c3 :: cat :: nm :: rest =>
      .found (.str "refs" :: .str "remotes" :: .pid p ::
        (.str "refs" :: .str "remotes" :: c3 :: cat :: nm :: rest : RName).drop 3)
  | .str "refs" :: .str "remotes" :: _ => .reject
  | .str "refs" :: .str "namespaces" :: c3 :: rest =>
      if h : isNamespaced (.str "refs" :: .str "namespaces" :: c3 :: rest : RName) then
        remote_tracking p
          (stripNamespaceRecursive (.str "refs" :: .str "namespaces" :: c3 :: rest : RName))
      else .panicked
  | .str "refs" :: c2 :: c3 :: rest =>
      .found (.str "refs" :: .str "remotes" :: .pid p :: c2 :: c3 :: rest)
  | _ => .reject
termination_by n.length
decreasing_by
  exact stripNamespaceRecursive_length h

/-- Composition of `remote_tracking` results: feed a successful rewrite into a
second `remote_tracking`, propagating rejection and panics. -/
def rtBind (p : PeerId) : RTRes → RTRes
  | .found m => remote_tracking p m
  | .reject => .reject
  | .panicked => .panicked

/-- Whether a name carries a category slot in the sense that `remote_tracking`
accepts it: mirrors the acceptance structure of the source. -/
def hasCategory (n : RName) : Bool :=
  match n with
  | .str "refs" :: .str "remotes" :: _ :: _ :: _ :: _ => true
  | .str "refs" :: .str "remotes" :: _ => false
  | .str "refs" :: .str "namespaces" :: c3 :: rest =>
      if h : isNamespaced (.str "refs" :: .str "namespaces" :: c3 :: rest : RName) then
        hasCategory (stripNamespaceRecursive (.str "refs" :: .str "namespaces" :: c3 :: rest : RName))
      else false
  | .str "refs" :: _ :: _ :: _ => true
  | _ => false
termination_by n.length
decreasing_by
  exact stripNamespaceRecursive_length h

/-- Well-formed namespacing: whenever the second component is `namespaces`, the
name is properly namespaced (so the source's `expect` cannot fire), recursively
after stripping.  Names produced by the system satisfy this; the source
documents its inputs as pre-validated. -/
def wfNs (n : RName) : Bool :=
  match n with
  | .str "refs" :: .str "namespaces" :: c3 :: rest =>
      if h : isNamespaced (.str "refs" :: .str "namespaces" :: c3 :: rest : RName) then
        wfNs (stripNamespaceRecursive (.str "refs" :: .str "namespaces" :: c3 :: rest : RName))
      else false
  | _ => true
termination_by n.length
decreasing_by
  exact stripNamespaceRecursive_length h

lemma remote_tracking_remotes (p : PeerId) (c3 cat nm : Comp) (rest : List Comp) :
    remote_tracking p (.str "refs" :: .str "remotes" :: c3 :: cat :: nm :: rest) =
      .found (.str "refs" :: .str "remotes" :: .pid p :: cat :: nm :: rest) := by
  rw [remote_tracking]
  rfl

lemma rt_idem (p q : PeerId) (n : RName) :
    rtBind p (remote_tracking q n) = remote_tracking p n := by
  induction n using remote_tracking.induct p with
  | case1 c3 cat nm rest =>
      simp [rtBind, remote_tracking_remotes]
  | case2 tail hne =>
      have e : ∀ r : PeerId,
          remote_tracking r (.str "refs" :: .str "remotes" :: tail : RName) = .reject := by
        intro r
        rw [remote_tracking] <;> assumption
      simp [rtBind, e]
  | case3 c3 rest hns ih =>
      have e : ∀ r : PeerId,
          remote_tracking r (.str "refs" :: .str "namespaces" :: c3 :: rest : RName) =
            remote_tracking r
              (stripNamespaceRecursive
                (.str "refs" :: .str "namespaces" :: c3 :: rest : RName)) := by
        intro r
        rw [remote_tracking, dif_pos hns]
      rw [e q, e p]
      exact ih
  | case4 c3 rest hns =>
      have e : ∀ r : PeerId,
          remote_tracking r (.str "refs" :: .str "namespaces" :: c3 :: rest : RName) =
            .panicked := by
        intro r
        rw [remote_tracking, dif_neg hns]
      simp [rtBind, e]
  | case5 c2 c3 rest h1 h2 h3 =>
      have e : ∀ r : PeerId,
          remote_tracking r (.str "refs" :: c2 :: c3 :: rest : RName) =
            .found (.str "refs" :: .str "remotes" :: .pid r :: c2 :: c3 :: rest) := by
        intro r
        rw [remote_tracking] <;> assumption
      rw [e q, e p]
      simp [rtBind, remote_tracking_remotes]
  | case6 x h1 h2 h3 h4 =>
      have e : ∀ r : PeerId, remote_tracking r x = .reject := by
        intro r
        rw [remote_tracking] <;> assumption
      simp [rtBind, e]

lemma rt_nocat (p : PeerId) (n : RName) :
    wfNs n = true → hasCategory n = false → remote_tracking p n = .reject := by
  induction n using remote_tracking.induct p with
  | case1 c3 cat nm rest =>
      intro _ hcat
      rw [hasCategory] at hcat
      exact absurd hcat (by simp)
  | case2 tail hne =>
      intro _ _
      rw [remote_tracking] <;> assumption
  | case3 c3 rest hns ih =>
      intro hwf hcat
      rw [wfNs, dif_pos hns] at hwf
      rw [hasCategory, dif_pos hns] at hcat
      rw [remote_tracking, dif_pos hns]
      exact ih hwf hcat
  | case4 c3 rest hns =>
      intro hwf _
      rw [wfNs, dif_neg hns] at hwf
      exact absurd hwf (by simp)
  | case5 c2 c3 rest h1 h2 h3 =>
      intro _ hcat
      rw [hasCategory] at hcat
      · exact absurd hcat (by simp)
      all_goals assumption
  | case6 x h1 h2 h3 h4 =>
      intro _ _
      rw [remote_tracking] <;> assumption

/-- **C8.** `remote_tracking` is idempotent modulo the outer peer: composing a
successful rewrite under peer `q` with a rewrite under peer `p` yields exactly
the rewrite under `p` (rejection and the panicking malformed-namespace inputs
propagate); and an input lacking a category slot (with well-formed namespacing,
so the source does not panic) is rejected (`None`). -/
theorem remote_tracking_idempotent_mod_outer_peer :
    (∀ p q : PeerId, ∀ n : RName, rtBind p (remote_tracking q n) = remote_tracking p n) ∧
    (∀ p : PeerId, ∀ n : RName, wfNs n = true → hasCategory n = false →
      remote_tracking p n = .reject) :=
  ⟨rt_idem, rt_nocat⟩

/-- Witness for C8 at concrete inputs: `refs/heads/main` composed through peers
`2` then `1`, and the category-less `refs/remotes/x`. -/
theorem remote_tracking_idempotent_mod_outer_peer_witness :
    rtBind 1 (remote_tracking 2 [.str "refs", .str "heads", .str "main"]) =
        remote_tracking 1 [.str "refs", .str "heads", .str "main"] ∧
      remote_tracking 1 [.str "refs", .str "remotes", .str "x"] = .reject :=
  ⟨remote_tracking_idempotent_mod_outer_peer.1 1 2 [.str "refs", .str "heads", .str "main"],
   remote_tracking_idempotent_mod_outer_peer.2 1 [.str "refs", .str "remotes", .str "x"]
     (by rw [wfNs] <;> simp) (by rw [hasCategory] <;> simp)⟩

/-! ## Association-list helpers (model of `BTreeMap`/`HashMap`) -/

/-- Key lookup in an association list (first match). -/
def findEntry {α β : Type} [DecidableEq α] : List (α × β) → α → Option β
  | [], _ => none
  | (a, b) :: rest, k => if a = k then some b else findEntry rest k

/-- Key insert-or-overwrite in an association list (keeps position on
overwrite, appends otherwise) — the model of map `insert`. -/
def setEntry {α β : Type} [DecidableEq α] : List (α × β) → α → β → List (α × β)
  | [], k, v => [(k, v)]
  | (a, b) :: rest, k, v => if a = k then (k, v) :: rest else (a, b) :: setEntry rest k v

/-! ## C9 — systemd socket activation (`lnk-clib` `socket_activation/sd.rs`) -/

/-- The three environment variables the socket-activation protocol uses. -/
structure Env : Type where
  listenPid : Option String
  listenFds : Option String
  listenFdnames : Option String
deriving DecidableEq

/-- Errors of `listen_fds` (`io::Error` values in the source). -/
inductive LFErr : Type
  | invalidListenPid
  | invalidListenFds
  | fdCountOverflow
deriving DecidableEq

/-- Rust `str::parse::<u32>`: decimal digits only, value below `2^32`. -/
def parseU32 (s : String) : Option Nat :=
  match s.toNat? with
  | none => none
  | some k => if k < 4294967296 then some k else none

/-- Body of `listen_fds` (everything inside the `Guard` scope): returns the
result and the set of fds marked close-on-exec.  `pid` is `process::id()`.
`fcntl` is modelled as succeeding (on failure the source returns early with an
error and no fd range, which the claims do not exercise). -/
def listen_fds_core (env : Env) (pid : Nat) : Except LFErr (List Nat) × List Nat :=
  match env.listenPid with
  | none => (.ok [], [])
  | some s =>
    match parseU32 s with
    | none => (.error .invalidListenPid, [])
    | some p =>
      if p = pid then
        match env.listenFds with
        | none => (.ok [], [])
        | some t =>
          match parseU32 t with
          | none => (.error .invalidListenFds, [])
          | some k =>
            if 4294967296 ≤ 3 + k then
              -- `SD_LISTEN_FDS_START.checked_add(listen_fds)` overflowed
              (.error .fdCountOverflow, [])
            else if 2147483648 < 3 + k then
              -- the per-fd `RawFd::try_from` fails at fd `2^31`; lower fds
              -- were already marked close-on-exec by then
              (.error .fdCountOverflow, List.range' 3 (2147483648 - 3))
            else if 2147483648 ≤ 3 + k then
              -- the final `RawFd::try_from(last)` fails when `last = 2^31`
              (.error .fdCountOverflow, List.range' 3 k)
            else (.ok (List.range' 3 k), List.range' 3 k)
      else (.ok [], [])

/-- `listen_fds` outcome: result, environment on return, and the fds marked
close-on-exec. -/
structure LFRes : Type where
  res : Except LFErr (List Nat)
  env : Env
  marked : List Nat

/-- `socket_activation::sd::listen_fds`: the `Guard` dropped on every exit
path removes `LISTEN_PID` and `LISTEN_FDS` — and only those two — from the
environment. -/
def listen_fds (env : Env) (pid : Nat) : LFRes :=
  let rm := listen_fds_core env pid
  ⟨rm.1, ⟨none, none, env.listenFdnames⟩, rm.2⟩

/-- Claim C9 as stated: on every return all three variables (`LISTEN_PID`,
`LISTEN_FDS`, `LISTEN_FDNAMES`) are unset and every fd of a returned range has
been marked close-on-exec. -/
def listen_fds_unsets_all_three : Prop :=
  ∀ (env : Env) (pid : Nat),
    (listen_fds env pid).env.listenPid = none ∧
    (listen_fds env pid).env.listenFds = none ∧
    (listen_fds env pid).env.listenFdnames = none ∧
    (∀ fds, (listen_fds env pid).res = .ok fds → ∀ fd ∈ fds, fd ∈ (listen_fds env pid).marked)

/-- **C9 counterexample.** With `LISTEN_FDNAMES=http` and `LISTEN_PID` absent,
`listen_fds` returns the empty range but leaves `LISTEN_FDNAMES` set: the
source's `Guard` only removes `LISTEN_PID` and `LISTEN_FDS`. -/
theorem listen_fds_fdnames_counterexample : ¬ listen_fds_unsets_all_three := by
  intro h
  have hc := (h ⟨none, none, some "http"⟩ 42).2.2.1
  simp [listen_fds] at hc

lemma listen_fds_core_marked (env : Env) (pid : Nat) :
    ∀ fds, (listen_fds_core env pid).1 = .ok fds →
      ∀ fd ∈ fds, fd ∈ (listen_fds_core env pid).2 := by
  unfold listen_fds_core
  repeat' split
  all_goals simp_all

/-- **C9 (amended).** For every invocation of `listen_fds`, on return
`LISTEN_PID` and `LISTEN_FDS` are unset while `LISTEN_FDNAMES` is left
untouched, and each inherited fd of the returned range has been marked
close-on-exec. -/
theorem listen_fds_env_and_cloexec (env : Env) (pid : Nat) :
    (listen_fds env pid).env.listenPid = none ∧
    (listen_fds env pid).env.listenFds = none ∧
    (listen_fds env pid).env.listenFdnames = env.listenFdnames ∧
    (∀ fds, (listen_fds env pid).res = .ok fds →
      ∀ fd ∈ fds, fd ∈ (listen_fds env pid).marked) :=
  ⟨rfl, rfl, rfl, listen_fds_core_marked env pid⟩

/-- Witness for C9 (amended) at a concrete environment: `LISTEN_PID` and
`LISTEN_FDS` name this process and two fds; the fds `3` and `4` come back
marked, `LISTEN_FDNAMES` survives. -/
theorem listen_fds_env_and_cloexec_witness :
    (listen_fds ⟨some "42", some "2", some "a:b"⟩ 42).env.listenPid = none ∧
    (listen_fds ⟨some "42", some "2", some "a:b"⟩ 42).env.listenFds = none ∧
    (listen_fds ⟨some "42", some "2", some "a:b"⟩ 42).env.listenFdnames = some "a:b" ∧
    (∀ fds, (listen_fds ⟨some "42", some "2", some "a:b"⟩ 42).res = .ok fds →
      ∀ fd ∈ fds, fd ∈ (listen_fds ⟨some "42", some "2", some "a:b"⟩ 42).marked) :=
  listen_fds_env_and_cloexec ⟨some "42", some "2", some "a:b"⟩ 42

/-! ## C10 — the `Shim`'s `SignedRefs::load` (state.rs) -/

/-- `sigrefs::Sigrefs`: a loaded signed-refs manifest (`at` is the commit the
manifest was loaded from). -/
structure SigrefsM : Type where
  at_ : Oid
  refs : List (RName × Oid)
  remotes : List PeerId
deriving DecidableEq

/-- `Shim::load` (state.rs, `impl SignedRefs for Shim`): if the speculative
sigref-tip map is empty, delegate to the persistent store's `load`; otherwise
answer purely from the speculative map — a peer without a speculative tip
yields `Ok(None)`, one with a tip is loaded via the inner store's `load_at` at
that tip. -/
def shim_load {E S : Type} (sigs : List (PeerId × Oid))
    (innerLoad : PeerId → Nat → Except E (Option S))
    (innerLoadAt : Oid → PeerId → Nat → Except E (Option S))
    (of : PeerId) (cutoff : Nat) : Except E (Option S) :=
  if sigs.isEmpty then innerLoad of cutoff
  else
    match findEntry sigs of with
    | none => .ok none
    | some tip => innerLoadAt tip of cutoff

/-- **C10.** `Shim::load` delegates to the persistent store exactly when the
speculative sigref-tip map is empty; with a non-empty map, a peer absent from
the map gets `Ok(None)` — for every inner store, i.e. without consulting it. -/
theorem shim_load_speculative_gate {E S : Type} (sigs : List (PeerId × Oid))
    (innerLoad : PeerId → Nat → Except E (Option S))
    (innerLoadAt : Oid → PeerId → Nat → Except E (Option S))
    (of : PeerId) (cutoff : Nat) :
    (sigs = [] → shim_load sigs innerLoad innerLoadAt of cutoff = innerLoad of cutoff) ∧
    (sigs ≠ [] → findEntry sigs of = none →
      shim_load sigs innerLoad innerLoadAt of cutoff = .ok none) := by
  constructor
  · intro h
    subst h
    rfl
  · intro h1 h2
    have he : sigs.isEmpty = false := by
      simpa [List.isEmpty_iff] using h1
    simp [shim_load, he, h2]

/-- Witness for C10: a map holding a tip only for peer `1`; loading peer `2`
returns `Ok(None)` regardless of the inner store, and the empty map delegates. -/
theorem shim_load_speculative_gate_witness :
    shim_load [((1 : PeerId), (7 : Oid))]
        (fun _ _ => (.ok (some 5) : Except Unit (Option Nat)))
        (fun _ _ _ => .ok (some 6)) 2 0 = .ok none ∧
      shim_load ([] : List (PeerId × Oid))
        (fun _ _ => (.ok (some 5) : Except Unit (Option Nat)))
        (fun _ _ _ => .ok (some 6)) 2 0 = .ok (some 5) :=
  ⟨(shim_load_speculative_gate [((1 : PeerId), (7 : Oid))] _ _ 2 0).2 (by simp)
      (by simp [findEntry]),
   (shim_load_speculative_gate ([] : List (PeerId × Oid))
      (fun _ _ => (.ok (some 5) : Except Unit (Option Nat))) _ 2 0).1 rfl⟩

/-! ## C5 — `sigrefs::combined` -/

/-- `sigrefs::Refs`: the per-peer entry of a `Combined` (`at` plus the signed
`(refname, head)` pairs). -/
structure RefsAtM : Type where
  at_ : Oid
  refs : List (RName × Oid)
deriving DecidableEq

/-- `sigrefs::Combined`. -/
structure CombinedM : Type where
  refs : List (PeerId × RefsAtM)
  remotes : List PeerId
deriving DecidableEq

/-- `sigrefs::error::Combine`. -/
inductive CombineErr (E : Type) : Type
  | notFound (p : PeerId)
  | load (e : E)
deriving DecidableEq

/-- `BTreeSet::append`-style union: add the members of `new` that are not yet
in `acc`, keeping `acc` duplicate-free when it was. -/
def insertRemotes (acc new : List PeerId) : List PeerId :=
  new.foldl (fun l x => if x ∈ l then l else l ++ [x]) acc

lemma mem_insertRemotes {x : PeerId} :
    ∀ {new acc : List PeerId}, x ∈ insertRemotes acc new ↔ x ∈ acc ∨ x ∈ new := by
  intro new
  induction new with
  | nil => simp [insertRemotes]
  | cons a t ih =>
      intro acc
      simp only [insertRemotes, List.foldl_cons]
      by_cases h : a ∈ acc
      · rw [if_pos h]
        rw [show List.foldl _ acc t = insertRemotes acc t from rfl, ih]
        simp only [List.mem_cons]
        constructor
        · rintro (hx | hx)
          · exact Or.inl hx
          · exact Or.inr (Or.inr hx)
        · rintro (hx | hx | hx)
          · exact Or.inl hx
          · exact Or.inl (hx ▸ h)
          · exact Or.inr hx
      · rw [if_neg h]
        rw [show List.foldl _ (acc ++ [a]) t = insertRemotes (acc ++ [a]) t from rfl, ih]
        simp only [List.mem_append, List.mem_singleton, List.mem_cons]
        tauto

/-- The accumulator step of `combined`'s `fold_ok`: insert the peer's entry
and union its `remotes`. -/
def combineInsert (c : CombinedM) (p : PeerId) (sr : SigrefsM) : CombinedM :=
  ⟨setEntry c.refs p ⟨sr.at_, sr.refs⟩, insertRemotes c.remotes sr.remotes⟩

/-- `Itertools::fold_ok` over the chained `must`/`may` item streams: stop at
the first error, otherwise fold the accumulator. -/
def combinedFold {E : Type} :
    List (Except (CombineErr E) (PeerId × SigrefsM)) → CombinedM →
      Except (CombineErr E) CombinedM
  | [], acc => .ok acc
  | .error e :: _, _ => .error e
  | .ok (p, sr) :: rest, acc => combinedFold rest (combineInsert acc p sr)

/-- One element of the `must` stream in `combined`: a load error is `Load`, a
missing manifest is `NotFound(peer)`, a present one yields the pair. -/
def mustItem {E : Type} (load : PeerId → Nat → Except E (Option SigrefsM))
    (cutoff : Nat) (p : PeerId) : Except (CombineErr E) (PeerId × SigrefsM) :=
  match load p cutoff with
  | .error e => .error (.load e)
  | .ok none => .error (.notFound p)
  | .ok (some sr) => .ok (p, sr)

/-- One element of the `may` stream in `combined`: a missing manifest is
silently skipped (`filter_map` yields nothing), a load error is kept as an
error item. -/
def mayItem {E : Type} (load : PeerId → Nat → Except E (Option SigrefsM))
    (cutoff : Nat) (p : PeerId) :
    Option (Except (CombineErr E) (PeerId × SigrefsM)) :=
  match load p cutoff with
  | .ok none => none
  | .ok (some sr) => some (.ok (p, sr))
  | .error e => some (.error (.load e))

/-- `sigrefs::combined`: load every `must` peer (failure to find is
`NotFound`), load every `may` peer (skip absent ones), and fold the results
into a `Combined`. -/
def combined {E : Type} (load : PeerId → Nat → Except E (Option SigrefsM))
    (must may : List PeerId) (cutoff : Nat) : Except (CombineErr E) CombinedM :=
  combinedFold (must.map (mustItem load cutoff) ++ may.filterMap (mayItem load cutoff))
    ⟨[], []⟩

lemma combinedFold_ok_mem {E : Type}
    (items : List (Except (CombineErr E) (PeerId × SigrefsM))) :
    ∀ (acc c : CombinedM), combinedFold items acc = .ok c → ∀ x : PeerId,
      (x ∈ c.remotes ↔ x ∈ acc.remotes ∨ ∃ p sr, .ok (p, sr) ∈ items ∧ x ∈ sr.remotes) := by
  induction items with
  | nil =>
      intro acc c h x
      rw [combinedFold] at h
      cases h
      simp
  | cons i t ih =>
      intro acc c h x
      cases i with
      | error e => rw [combinedFold] at h; cases h
      | ok psr =>
          obtain ⟨p, sr⟩ := psr
          rw [combinedFold] at h
          rw [ih _ _ h x]
          simp only [combineInsert, mem_insertRemotes, List.mem_cons]
          constructor
          · rintro (⟨hx | hx⟩ | ⟨p1, sr1, hm, hx⟩)
            · exact Or.inl hx
            · exact Or.inr ⟨p, sr, Or.inl rfl, hx⟩
            · exact Or.inr ⟨p1, sr1, Or.inr hm, hx⟩
          · rintro (hx | ⟨p1, sr1, hm | hm, hx⟩)
            · exact Or.inl (Or.inl hx)
            · cases hm
              exact Or.inl (Or.inr hx)
            · exact Or.inr ⟨p1, sr1, hm, hx⟩

lemma mustItem_eq_ok {E : Type} {load : PeerId → Nat → Except E (Option SigrefsM)}
    {cutoff : Nat} {q p : PeerId} {sr : SigrefsM} :
    mustItem load cutoff q = .ok (p, sr) ↔ q = p ∧ load p cutoff = .ok (some sr) := by
  unfold mustItem
  rcases hl : load q cutoff with e | o
  · simp only [reduceCtorEq, false_iff, not_and]
    rintro rfl h2
    rw [hl] at h2
    simp at h2
  · cases o with
    | none =>
        simp only [reduceCtorEq, false_iff, not_and]
        rintro rfl h2
        rw [hl] at h2
        simp at h2
    | some sr1 =>
        simp only [Except.ok.injEq, Prod.mk.injEq]
        constructor
        · rintro ⟨rfl, rfl⟩
          exact ⟨rfl, hl⟩
        · rintro ⟨rfl, h2⟩
          rw [hl] at h2
          cases h2
          exact ⟨rfl, rfl⟩

lemma mayItem_eq_ok {E : Type} {load : PeerId → Nat → Except E (Option SigrefsM)}
    {cutoff : Nat} {q p : PeerId} {sr : SigrefsM} :
    mayItem load cutoff q = some (.ok (p, sr)) ↔ q = p ∧ load p cutoff = .ok (some sr) := by
  unfold mayItem
  rcases hl : load q cutoff with e | o
  · simp only [Option.some.injEq, reduceCtorEq, false_iff, not_and]
    rintro rfl h2
    rw [hl] at h2
    simp at h2
  · cases o with
    | none =>
        simp only [reduceCtorEq, false_iff, not_and]
        rintro rfl h2
        rw [hl] at h2
        simp at h2
    | some sr1 =>
        simp only [Option.some.injEq, Except.ok.injEq, Prod.mk.injEq]
        constructor
        · rintro ⟨rfl, rfl⟩
          exact ⟨rfl, hl⟩
        · rintro ⟨rfl, h2⟩
          rw [hl] at h2
          cases h2
          exact ⟨rfl, rfl⟩

lemma combinedFold_first_error {E : Type} (e : CombineErr E) :
    ∀ (pre rest : List (Except (CombineErr E) (PeerId × SigrefsM))),
      (∀ i ∈ pre, ∃ pr, i = .ok pr) →
      ∀ acc, combinedFold (pre ++ .error e :: rest) acc = .error e := by
  intro pre
  induction pre with
  | nil => intro rest _ acc; rfl
  | cons i t ih =>
      intro rest hok acc
      obtain ⟨pr, rfl⟩ := hok i (by simp)
      obtain ⟨p1, sr1⟩ := pr
      rw [List.cons_append, combinedFold]
      exact ih rest (fun j hj => hok j (by simp [hj])) _

/-- **C5.** `combined {must, may, cutoff}`: (1) a `must` peer whose sigrefs
load yields no manifest aborts with `NotFound(peer)` (stated for the first
such peer, matching the fold's short-circuit); (2) on success, the flattened
`remotes` set is exactly the union of the `remotes` of all loaded peers;
(3) a `may` peer whose sigrefs are absent is silently omitted — dropping it
from the selector leaves the result unchanged. -/
theorem combined_select_semantics {E : Type}
    (load : PeerId → Nat → Except E (Option SigrefsM)) (cutoff : Nat) :
    (∀ (mpre : List PeerId) (p : PeerId) (mrest may : List PeerId),
      (∀ q ∈ mpre, ∃ sr, load q cutoff = .ok (some sr)) →
      load p cutoff = .ok none →
      combined load (mpre ++ p :: mrest) may cutoff = .error (.notFound p)) ∧
    (∀ (must may : List PeerId) (c : CombinedM),
      combined load must may cutoff = .ok c →
      ∀ x : PeerId, x ∈ c.remotes ↔
        ∃ p sr, (p ∈ must ∨ p ∈ may) ∧ load p cutoff = .ok (some sr) ∧ x ∈ sr.remotes) ∧
    (∀ (must apre : List PeerId) (p : PeerId) (arest : List PeerId),
      load p cutoff = .ok none →
      combined load must (apre ++ p :: arest) cutoff =
        combined load must (apre ++ arest) cutoff) := by
  refine ⟨?_, ?_, ?_⟩
  · intro mpre p mrest may hpre hp
    unfold combined
    rw [List.map_append, List.map_cons]
    rw [show mustItem load cutoff p = .error (.notFound p) by
      unfold mustItem; rw [hp]]
    rw [List.append_assoc, List.cons_append]
    refine combinedFold_first_error _ _ _ ?_ _
    intro i hi
    rw [List.mem_map] at hi
    obtain ⟨q, hq, rfl⟩ := hi
    obtain ⟨sr, hsr⟩ := hpre q hq
    exact ⟨(q, sr), by unfold mustItem; rw [hsr]⟩
  · intro must may c h x
    unfold combined at h
    rw [combinedFold_ok_mem _ _ _ h x]
    simp only [List.mem_append, List.mem_map, List.mem_filterMap, CombinedM.remotes]
    constructor
    · rintro (hx | ⟨p, sr, hm | hm, hx⟩)
      · simp at hx
      · obtain ⟨q, hq, hqe⟩ := hm
        obtain ⟨heq, hload⟩ := mustItem_eq_ok.mp hqe
        exact ⟨p, sr, Or.inl (heq ▸ hq), hload, hx⟩
      · obtain ⟨q, hq, hqe⟩ := hm
        obtain ⟨heq, hload⟩ := mayItem_eq_ok.mp hqe
        exact ⟨p, sr, Or.inr (heq ▸ hq), hload, hx⟩
    · rintro ⟨p, sr, hp | hp, hload, hx⟩
      · exact Or.inr ⟨p, sr, Or.inl ⟨p, hp, mustItem_eq_ok.mpr ⟨rfl, hload⟩⟩, hx⟩
      · exact Or.inr ⟨p, sr, Or.inr ⟨p, hp, mayItem_eq_ok.mpr ⟨rfl, hload⟩⟩, hx⟩
  · intro must apre p arest hp
    unfold combined
    rw [List.filterMap_append, List.filterMap_append, List.filterMap_cons]
    rw [show mayItem load cutoff p = none by unfold mayItem; rw [hp]]

/-- Witness for C5 at concrete inputs: `must = [1]` with peer `1` present
(remotes `{3}`), `may = [2]` with peer `2` absent: the `NotFound` abort for a
missing `must` peer, the remotes union on success, and the silent omission of
the absent `may` peer. -/
theorem combined_select_semantics_witness :
    (combined (fun p _ => if p = 1 then .ok (some ⟨9, [], [3]⟩) else
        (.ok none : Except Unit (Option SigrefsM))) [2] [] 2 = .error (.notFound 2)) ∧
    (∀ x : PeerId, x ∈ (⟨[(1, ⟨9, []⟩)], [3]⟩ : CombinedM).remotes ↔
      ∃ (p : PeerId) (sr : SigrefsM), (p ∈ [(1 : PeerId)] ∨ p ∈ [(2 : PeerId)]) ∧
        (fun p _ => if p = 1 then .ok (some ⟨9, [], [3]⟩) else
          (.ok none : Except Unit (Option SigrefsM))) p 2 = .ok (some sr) ∧
        x ∈ sr.remotes) ∧
    (combined (fun p _ => if p = 1 then .ok (some ⟨9, [], [3]⟩) else
        (.ok none : Except Unit (Option SigrefsM))) [1] ([] ++ 2 :: []) 2 =
      combined (fun p _ => if p = 1 then .ok (some ⟨9, [], [3]⟩) else
        (.ok none : Except Unit (Option SigrefsM))) [1] ([] ++ []) 2) := by
  refine ⟨?_, ?_, ?_⟩
  · exact (combined_select_semantics _ 2).1 [] 2 [] [] (by simp) (by simp)
  · have h := (combined_select_semantics (fun p _ => if p = 1 then .ok (some ⟨9, [], [3]⟩)
      else (.ok none : Except Unit (Option SigrefsM))) 2).2.1 [1] [2] ⟨[(1, ⟨9, []⟩)], [3]⟩
    exact h (by simp [combined, mustItem, mayItem, combinedFold, combineInsert,
      insertRemotes, setEntry])
  · exact (combined_select_semantics _ 2).2.2 [1] [] 2 [] (by simp)

/-! ## C6/C7 — the network driver `Network::run_fetch` (io/net.rs) -/

/-- An advertised ref (`refs::into_unpacked(r)`): its full name and tip. -/
structure AdvRef : Type where
  name : RName
  tip : Oid
deriving DecidableEq

/-- `Vec::sort` for the rendered (byte-string) prefixes, via insertion by
`Ord`-comparison. -/
def insertSorted (a : String) : List String → List String
  | [] => [a]
  | b :: t =>
    match compare a b with
    | .gt => b :: insertSorted a t
    | _ => a :: b :: t

/-- Sort the prefix strings (`ref_prefixes.sort()`). -/
def sortStrings (l : List String) : List String := l.foldr insertSorted []

/-- `Vec::dedup`: remove consecutive duplicates. -/
def dedupAdj : List String → List String
  | [] => []
  | [a] => [a]
  | a :: b :: t => if a = b then dedupAdj (b :: t) else a :: dedupAdj (b :: t)

/-- `WantsHaves` as returned by a step's `wants_haves`. -/
structure WantsHavesM (F : Type) : Type where
  wanted : List F
  wants : List Oid
  haves : List Oid

/-- The negotiation-step interface `run_fetch` consumes: the `ls-refs`
prefixes, the advertised-ref filter, and `wants_haves` (with the refdb lookups
already folded into the closure, as `run_fetch` merely passes `&self.db`).
`tipOf`/`nameOf` project the fields `run_fetch` reads off a `FilteredRef`. -/
structure StepFns (F : Type) : Type where
  refPfxs : List String
  refFilter : AdvRef → Option F
  wantsHaves : List F → Except String (WantsHavesM F)
  tipOf : F → Oid
  nameOf : F → RName

/-- The remote side and pack data of one `run_fetch` round: the `ls-refs`
response as a function of the prefixes sent, the `wanted-refs` pushed in the
`fetch` response (`want_refs` is empty, so a compliant server pushes none),
and the object ids contained in the returned pack. -/
structure ServerM : Type where
  lsRefs : List String → List AdvRef
  pushed : List AdvRef
  pack : List Oid

/-- `SkippedFetch` (transmit.rs). -/
inductive SkippedFetchM : Type
  | noMatchingRefs
  | wantNothing
deriving DecidableEq

/-- The error paths of `run_fetch` the embedding distinguishes. -/
inductive NetErrM : Type
  | wantsHavesErr (msg : String)
  | notFoundInPack (name : RName) (tip : Oid)
deriving DecidableEq

/-- Outcome of `run_fetch`: skip, fetched refs (the `Ok` payload), or error. -/
inductive FetchOutcome (F : Type) : Type
  | skipped (s : SkippedFetchM)
  | fetched (refsInPack : List F)
  | failed (e : NetErrM)

/-- Result of one `run_fetch` round: outcome, the object database on return,
and whether the second (fetch/pack) byte stream was opened. -/
structure RunFetchRes (F : Type) : Type where
  outcome : FetchOutcome F
  odb : List Oid
  fetchStreamOpened : Bool

/-- `Network::run_fetch` (io/net.rs): sort and dedup the step's prefixes, run
`ls-refs`; skip with `NoMatchingRefs` on an empty advertisement; filter the
advertised refs and compute wants/haves; subtract haves from wants and skip
with `WantNothing` when nothing remains; otherwise open the second stream,
fetch and ingest the pack, then fail if any requested tip is missing locally,
else return the filtered pushed refs chained with the wanted refs. -/
def run_fetch {F : Type} (odb : List Oid) (srv : ServerM) (step : StepFns F) :
    RunFetchRes F :=
  if (srv.lsRefs (dedupAdj (sortStrings step.refPfxs))).isEmpty then
    ⟨.skipped .noMatchingRefs, odb, false⟩
  else
    match step.wantsHaves
        ((srv.lsRefs (dedupAdj (sortStrings step.refPfxs))).filterMap step.refFilter) with
    | .error e => ⟨.failed (.wantsHavesErr e), odb, false⟩
    | .ok wh =>
      if (wh.wants.filter (fun o => decide (o ∉ wh.haves))).isEmpty then
        ⟨.skipped .wantNothing, odb, false⟩
      else
        match (srv.pushed.filterMap step.refFilter ++ wh.wanted).find?
            (fun r => decide (step.tipOf r ∉ odb ++ srv.pack)) with
        | some r =>
            ⟨.failed (.notFoundInPack (step.nameOf r) (step.tipOf r)), odb ++ srv.pack, true⟩
        | none => ⟨.fetched (srv.pushed.filterMap step.refFilter ++ wh.wanted),
            odb ++ srv.pack, true⟩

/-- **C6.** `run_fetch` skips in exactly two cases: `NoMatchingRefs` iff
`ls-refs` on the sorted, deduplicated prefixes returns zero refs, and
`WantNothing` iff the advertisement was non-empty, `wants_haves` succeeded,
and subtracting the haves from the wants leaves nothing; in both skip cases
the fetch stream is not opened and the object database is untouched (no pack
is ingested). -/
theorem run_fetch_skip_conditions {F : Type} (odb : List Oid) (srv : ServerM)
    (step : StepFns F) :
    ((run_fetch odb srv step).outcome = .skipped .noMatchingRefs ↔
      srv.lsRefs (dedupAdj (sortStrings step.refPfxs)) = []) ∧
    ((run_fetch odb srv step).outcome = .skipped .wantNothing ↔
      srv.lsRefs (dedupAdj (sortStrings step.refPfxs)) ≠ [] ∧
      ∃ wh, step.wantsHaves
          ((srv.lsRefs (dedupAdj (sortStrings step.refPfxs))).filterMap step.refFilter)
          = .ok wh ∧
        wh.wants.filter (fun o => decide (o ∉ wh.haves)) = []) ∧
    (∀ s, (run_fetch odb srv step).outcome = .skipped s →
      (run_fetch odb srv step).odb = odb ∧
      (run_fetch odb srv step).fetchStreamOpened = false) := by
  unfold run_fetch
  rcases hadv : srv.lsRefs (dedupAdj (sortStrings step.refPfxs)) with _ | ⟨a, t⟩
  · simp
  · rw [show (a :: t : List AdvRef).isEmpty = false from rfl]
    simp only [Bool.false_eq_true, if_false]
    rcases hwh : step.wantsHaves ((a :: t).filterMap step.refFilter) with e | wh
    · dsimp only
      refine ⟨by simp, ?_, by intro s hs; exact absurd hs (by simp)⟩
      constructor
      · intro hc
        exact absurd hc (by simp)
      · rintro ⟨_, wh1, hwh1, _⟩
        exact absurd hwh1 (by simp)
    · dsimp only
      by_cases hw : wh.wants.filter (fun o => decide (o ∉ wh.haves)) = []
      · rw [if_pos (by simpa [List.isEmpty_iff] using hw)]
        refine ⟨by simp, ?_, by intro s _; exact ⟨rfl, rfl⟩⟩
        constructor
        · intro _
          exact ⟨by simp, wh, rfl, hw⟩
        · intro _
          rfl
      · rw [if_neg (by simpa [List.isEmpty_iff] using hw)]
        rcases hfind : ((srv.pushed.filterMap step.refFilter ++ wh.wanted).find?
            (fun r => decide (step.tipOf r ∉ odb ++ srv.pack))) with _ | r
        · dsimp only
          refine ⟨by simp, ?_, by intro s hs; exact absurd hs (by simp)⟩
          constructor
          · intro hc
            exact absurd hc (by simp)
          · rintro ⟨_, wh1, hwh1, hw1⟩
            cases hwh1
            exact (hw hw1).elim
        · dsimp only
          refine ⟨by simp, ?_, by intro s hs; exact absurd hs (by simp)⟩
          constructor
          · intro hc
            exact absurd hc (by simp)
          · rintro ⟨_, wh1, hwh1, hw1⟩
            cases hwh1
            exact (hw hw1).elim

/-- Witness for C6: one-ref advertisement, one want not already had — the run
does not skip; with an empty advertisement it skips with `NoMatchingRefs`. -/
theorem run_fetch_skip_conditions_witness :
    ((run_fetch [] ⟨fun _ => [], [], []⟩
        (⟨[], fun a => some a, fun fs => .ok ⟨fs, [1], []⟩, AdvRef.tip, AdvRef.name⟩
          : StepFns AdvRef)).outcome = .skipped .noMatchingRefs ↔
      ([] : List AdvRef) = []) ∧
    ((run_fetch [] ⟨fun _ => [⟨[.str "refs", .str "heads", .str "m"], 1⟩], [], [1]⟩
        (⟨[], fun a => some a, fun fs => .ok ⟨fs, [1], [1]⟩, AdvRef.tip, AdvRef.name⟩
          : StepFns AdvRef)).outcome = .skipped .wantNothing) := by
  constructor
  · have h := (run_fetch_skip_conditions ([] : List Oid) ⟨fun _ => [], [], []⟩
      (⟨[], fun a => some a, fun fs => .ok ⟨fs, [1], []⟩, AdvRef.tip, AdvRef.name⟩
        : StepFns AdvRef)).1
    simpa using h
  · have h := (run_fetch_skip_conditions ([] : List Oid)
      ⟨fun _ => [⟨[.str "refs", .str "heads", .str "m"], 1⟩], [], [1]⟩
      (⟨[], fun a => some a, fun fs => .ok ⟨fs, [1], [1]⟩, AdvRef.tip, AdvRef.name⟩
        : StepFns AdvRef)).2.1
    rw [h]
    exact ⟨by simp [sortStrings, dedupAdj], ⟨_, rfl, by simp⟩⟩

/-- **C7.** When `run_fetch` reaches the data fetch (non-empty advertisement,
`wants_haves` succeeded, wants remained after subtracting haves), the pack is
ingested into the odb and then every requested tip is checked for local
presence: a missing tip among the pushed-and-wanted refs fails the run with
`notFoundInPack`, and a successful (`fetched`) return implies every wanted
ref's tip is in the object database and every wanted ref is in the returned
list. -/
theorem run_fetch_pack_validation {F : Type} (odb : List Oid) (srv : ServerM)
    (step : StepFns F) (wh : WantsHavesM F)
    (hadv : srv.lsRefs (dedupAdj (sortStrings step.refPfxs)) ≠ [])
    (hwh : step.wantsHaves
        ((srv.lsRefs (dedupAdj (sortStrings step.refPfxs))).filterMap step.refFilter)
      = .ok wh)
    (hw : wh.wants.filter (fun o => decide (o ∉ wh.haves)) ≠ []) :
    ((∃ r ∈ srv.pushed.filterMap step.refFilter ++ wh.wanted,
        step.tipOf r ∉ odb ++ srv.pack) →
      ∃ r, (run_fetch odb srv step).outcome
          = .failed (.notFoundInPack (step.nameOf r) (step.tipOf r)) ∧
        step.tipOf r ∉ odb ++ srv.pack) ∧
    (∀ rs, (run_fetch odb srv step).outcome = .fetched rs →
      (run_fetch odb srv step).odb = odb ++ srv.pack ∧
      ∀ r ∈ wh.wanted, step.tipOf r ∈ odb ++ srv.pack ∧ r ∈ rs) := by
  unfold run_fetch
  rw [show (srv.lsRefs (dedupAdj (sortStrings step.refPfxs))).isEmpty = false by
    simpa [List.isEmpty_iff] using hadv]
  simp only [Bool.false_eq_true, if_false]
  rw [hwh]
  dsimp only
  rw [if_neg (by simpa [List.isEmpty_iff] using hw)]
  rcases hfind : (srv.pushed.filterMap step.refFilter ++ wh.wanted).find?
      (fun r => decide (step.tipOf r ∉ odb ++ srv.pack)) with _ | r
  · rw [List.find?_eq_none] at hfind
    constructor
    · rintro ⟨r, hr, htip⟩
      exact absurd (by simpa using hfind r hr) (by simpa using htip)
    · rintro rs h
      cases h
      refine ⟨rfl, ?_⟩
      intro r hr
      have h3 := hfind r (by simp [hr])
      simp only [decide_eq_true_eq, not_not] at h3
      exact ⟨h3, by simp [hr]⟩
  · have hp := List.find?_some hfind
    constructor
    · intro _
      exact ⟨r, rfl, by simpa using hp⟩
    · rintro rs h
      cases h

/-- Witness for C7: a fetch whose pack misses the advertised tip fails with
`notFoundInPack`; with the tip present the run returns `fetched` and the
wanted tip is in the odb. -/
theorem run_fetch_pack_validation_witness :
    (∃ r, (run_fetch [] ⟨fun _ => [⟨[.str "refs", .str "heads", .str "m"], 1⟩], [], []⟩
        (⟨[], fun a => some a, fun fs => .ok ⟨fs, [1], []⟩, AdvRef.tip, AdvRef.name⟩
          : StepFns AdvRef)).outcome
        = .failed (.notFoundInPack (AdvRef.name r) (AdvRef.tip r)) ∧
      AdvRef.tip r ∉ ([] : List Oid) ++ ([] : List Oid)) ∧
    (∀ rs, (run_fetch [] ⟨fun _ => [⟨[.str "refs", .str "heads", .str "m"], 1⟩], [], [1]⟩
        (⟨[], fun a => some a, fun fs => .ok ⟨fs, [1], []⟩, AdvRef.tip, AdvRef.name⟩
          : StepFns AdvRef)).outcome = .fetched rs →
      ∀ r ∈ [(⟨[.str "refs", .str "heads", .str "m"], 1⟩ : AdvRef)],
        AdvRef.tip r ∈ ([] : List Oid) ++ [(1 : Oid)] ∧ r ∈ rs) := by
  constructor
  · have h := (run_fetch_pack_validation ([] : List Oid)
      ⟨fun _ => [⟨[.str "refs", .str "heads", .str "m"], 1⟩], [], []⟩
      (⟨[], fun a => some a, fun fs => .ok ⟨fs, [1], []⟩, AdvRef.tip, AdvRef.name⟩
        : StepFns AdvRef) ⟨[⟨[.str "refs", .str "heads", .str "m"], 1⟩], [1], []⟩
      (by simp [sortStrings, dedupAdj]) (by simp [sortStrings, dedupAdj]) (by simp)).1
    exact h ⟨⟨[.str "refs", .str "heads", .str "m"], 1⟩, by simp, by simp⟩
  · have h := (run_fetch_pack_validation ([] : List Oid)
      ⟨fun _ => [⟨[.str "refs", .str "heads", .str "m"], 1⟩], [], [1]⟩
      (⟨[], fun a => some a, fun fs => .ok ⟨fs, [1], []⟩, AdvRef.tip, AdvRef.name⟩
        : StepFns AdvRef) ⟨[⟨[.str "refs", .str "heads", .str "m"], 1⟩], [1], []⟩
      (by simp [sortStrings, dedupAdj]) (by simp [sortStrings, dedupAdj]) (by simp)).2
    intro rs hrs
    have h2 := h rs hrs
    intro r hr
    simp only [List.mem_singleton] at hr
    subst hr
    exact h2.2 ⟨[.str "refs", .str "heads", .str "m"], 1⟩ (by simp)


/-! ## C3/C4 — the transactional `Refdb::update` (io/refdb.rs) -/

/-- A ref target: direct (peeled) or symbolic (`gitoxide` `Target`). -/
inductive TargetM : Type
  | peeled (o : Oid)
  | symbolic (n : RName)
deriving DecidableEq

/-- `refdb::Policy`. -/
inductive Policy : Type
  | abort
  | reject
  | allow
deriving DecidableEq

/-- `refdb::Update`: a `Direct` update (qualified name, target, non-ff policy)
or a `Symbolic` one (qualified name, symref target name — already namespaced in
the source — with its object id, and the type-change policy). -/
inductive UpdateM : Type
  | direct (name : RName) (target : Oid) (noFF : Policy)
  | symbolic (name : RName) (symName : RName) (symTarget : Oid) (typeChange : Policy)
deriving DecidableEq

/-- Transaction errors (`io::refdb::error::Tx`). -/
inductive TxErr : Type
  | nonFF (name : RName) (new cur : Oid)
  | missingSymrefTarget (name target : RName)
  | targetSymbolic (n : RName)
  | unexpectedSymrefTarget (name : RName) (expected actual : Oid)
  | typeChange (n : RName)
  | ancestry (name : RName) (new old : Oid) (msg : String)
  | findErr
  | commitErr (n : RName)
deriving DecidableEq

/-- `gitoxide` `PreviousValue` (the two precondition forms the source uses). -/
inductive PreviousValue : Type
  | mustNotExist
  | mustExistAndMatch (t : TargetM)
deriving DecidableEq

/-- A `RefEdit` (name, precondition, new target, forced reflog creation). -/
structure RefEdit : Type where
  name : RName
  expected : PreviousValue
  newTarget : TargetM
  forceCreateReflog : Bool
deriving DecidableEq

/-- The reference database backing one namespace: the namespace prefix
(`refs/namespaces/<ns>` as rendered by `Namespace::as_bstr`, prepended to every
name), the refs on disk, and the odb's `is_in_ancestry_path(new, old)`. -/
structure RefdbM : Type where
  ns : RName
  refs : List (RName × TargetM)
  anc : Oid → Oid → Except String Bool

/-- `force_reflog` (io/refdb.rs): writes under `refs/rad/**`,
`refs/remotes/*/rad/**` and their namespaced forms force reflog creation. -/
def force_reflog (n : RName) : Bool :=
  match n with
  | .str "refs" :: .str "rad" :: _ => true
  | .str "refs" :: .str "remotes" :: _ :: .str "rad" :: _ => true
  | .str "refs" :: .str "namespaces" :: _ :: .str "refs" :: .str "rad" :: _ => true
  | .str "refs" :: .str "namespaces" :: _ :: .str "refs" :: .str "remotes" :: _ ::
      .str "rad" :: _ => true
  | _ => false

/-- Peel a target to an object id following symref links (`peel_to_id_in_place`),
with fuel bounding the chain length; a dangling or cyclic chain yields `none`
(the source surfaces a find/peel error there). -/
def resolvePeeled (refs : List (RName × TargetM)) : Nat → RName → Option Oid
  | 0, _ => none
  | fuel + 1, n =>
    match findEntry refs n with
    | none => none
    | some (.peeled o) => some o
    | some (.symbolic m) => resolvePeeled refs fuel m

/-- `Refdb::find_namespaced` on an already namespace-qualified name: `None` if
the ref does not exist, its peeled id otherwise; peeling failure is a find
error. -/
def find_namespaced (db : RefdbM) (full : RName) : Except TxErr (Option Oid) :=
  match findEntry db.refs full with
  | none => .ok none
  | some (.peeled o) => .ok (some o)
  | some (.symbolic m) =>
    match resolvePeeled db.refs (db.refs.length + 1) m with
    | some o => .ok (some o)
    | none => .error .findErr

/-- `Refdb::as_edits`: translate one `Update` into either a rejection
(`Left`, for the `Reject` policies) or the list of `RefEdit`s to apply. -/
def as_edits (db : RefdbM) (u : UpdateM) : Except TxErr (Sum UpdateM (List RefEdit)) :=
  match u with
  | .direct name target noFF =>
    let fcr := force_reflog name
    match find_namespaced db (db.ns ++ name) with
    | .error e => .error e
    | .ok none =>
        .ok (.inr [⟨db.ns ++ name, .mustNotExist, .peeled target, fcr⟩])
    | .ok (some prev) =>
      match db.anc target prev with
      | .error e => .error (.ancestry (db.ns ++ name) target prev e)
      | .ok isFF =>
        if isFF then
          .ok (.inr [⟨db.ns ++ name, .mustExistAndMatch (.peeled prev), .peeled target, fcr⟩])
        else
          match noFF with
          | .abort => .error (.nonFF (db.ns ++ name) target prev)
          | .reject => .ok (.inl u)
          | .allow =>
              .ok (.inr [⟨db.ns ++ name, .mustExistAndMatch (.peeled prev),
                .peeled target, fcr⟩])
  | .symbolic name symName symTarget typeChange =>
    match findEntry db.refs (db.ns ++ name), typeChange with
    | some (.peeled _), .abort => .error (.typeChange (db.ns ++ name))
    | some (.peeled _), .reject => .ok (.inl u)
    | _, _ =>
      let fcr := force_reflog (db.ns ++ name)
      match findEntry db.refs symName with
      | some (.symbolic d) => .error (.targetSymbolic d)
      | none =>
          .ok (.inr [⟨symName, .mustNotExist, .peeled symTarget, fcr⟩,
            ⟨db.ns ++ name, .mustNotExist, .symbolic symName, fcr⟩])
      | some (.peeled d) =>
        if symTarget = d then
          .ok (.inr [⟨db.ns ++ name, .mustNotExist, .symbolic symName, fcr⟩])
        else
          match db.anc symTarget d with
          | .error e => .error (.ancestry symName symTarget d e)
          | .ok isFF =>
            .ok (.inr
              ((if isFF then
                  [⟨symName, .mustExistAndMatch (.peeled d), .peeled symTarget,
                    force_reflog symName⟩]
                else []) ++
                [⟨db.ns ++ name, .mustNotExist, .symbolic symName, fcr⟩]))

/-- Insert one edit into the keyed edit map, overwriting an existing edit of
the same name (`HashMap<FullName, RefEdit>::extend`). -/
def insertEdit : List RefEdit → RefEdit → List RefEdit
  | [], e => [e]
  | x :: xs, e => if x.name = e.name then e :: xs else x :: insertEdit xs e

/-- The `fold_ok` over `as_edits`: collect the rejected updates (in order) and
the keyed edits; the first error aborts. -/
def collectEdits (db : RefdbM) :
    List UpdateM → List UpdateM → List RefEdit →
      Except TxErr (List UpdateM × List RefEdit)
  | [], rej, eds => .ok (rej, eds)
  | u :: rest, rej, eds =>
    match as_edits db u with
    | .error e => .error e
    | .ok (.inl v) => collectEdits db rest (rej ++ [v]) eds
    | .ok (.inr es) => collectEdits db rest rej (es.foldl insertEdit eds)

/-- A committed change (`refdb::Updated`). -/
inductive Updated : Type
  | direct (name : RName) (target : Oid)
  | symbolic (name target : RName)
deriving DecidableEq

/-- `refdb::Applied`. -/
structure Applied : Type where
  rejected : List UpdateM
  updated : List Updated
deriving DecidableEq

/-- Check one edit's precondition against the pre-transaction store
(`transaction().prepare`). -/
def checkEdit (refs : List (RName × TargetM)) (e : RefEdit) : Bool :=
  match e.expected with
  | .mustNotExist => (findEntry refs e.name).isNone
  | .mustExistAndMatch t => findEntry refs e.name = some t

/-- Apply one edit to the store. -/
def applyEdit (refs : List (RName × TargetM)) (e : RefEdit) : List (RName × TargetM) :=
  setEntry refs e.name e.newTarget

/-- The `Updated` entry of a committed edit. -/
def toUpdated (e : RefEdit) : Updated :=
  match e.newTarget with
  | .peeled o => .direct e.name o
  | .symbolic m => .symbolic e.name m

/-- `Refdb::update` (io/refdb.rs): translate all updates via `as_edits`
(first error aborts the transaction with nothing applied), then prepare and
commit the keyed edits — each edit's precondition is checked against the
pre-transaction store, all edits are applied, and the applied edits are
reported in `Applied.updated` with the rejections in `Applied.rejected`. -/
def refdb_update (db : RefdbM) (ups : List UpdateM) :
    Except TxErr (RefdbM × Applied) :=
  match collectEdits db ups [] [] with
  | .error e => .error e
  | .ok (rej, eds) =>
    match eds.find? (fun e => decide (checkEdit db.refs e = false)) with
    | some e => .error (.commitErr e.name)
    | none =>
        .ok (⟨db.ns, eds.foldl applyEdit db.refs, db.anc⟩,
          ⟨rej, eds.map toUpdated⟩)

lemma collectEdits_append (db : RefdbM) :
    ∀ (a b : List UpdateM) (rej : List UpdateM) (eds : List RefEdit),
      collectEdits db (a ++ b) rej eds =
        match collectEdits db a rej eds with
        | .error e => .error e
        | .ok (r, e) => collectEdits db b r e := by
  intro a
  induction a with
  | nil => intro b rej eds; rfl
  | cons u t ih =>
      intro b rej eds
      rw [List.cons_append, collectEdits, collectEdits]
      rcases as_edits db u with e | v
      · rfl
      · rcases v with v | es
        · exact ih b (rej ++ [v]) eds
        · exact ih b rej (es.foldl insertEdit eds)

lemma collectEdits_rej_acc (db : RefdbM) :
    ∀ (l : List UpdateM) (rej : List UpdateM) (eds : List RefEdit),
      collectEdits db l rej eds =
        match collectEdits db l [] eds with
        | .error e => .error e
        | .ok (r, e) => .ok (rej ++ r, e) := by
  intro l
  induction l with
  | nil => intro rej eds; simp [collectEdits]
  | cons u t ih =>
      intro rej eds
      rw [collectEdits, collectEdits]
      rcases as_edits db u with e | v
      · rfl
      · rcases v with v | es
        · dsimp only
          simp only [List.nil_append]
          rw [ih (rej ++ [v]) eds, ih [v] eds]
          rcases collectEdits db t [] eds with e | pr
          · rfl
          · dsimp only
            obtain ⟨r1, e1⟩ := pr
            simp
        · dsimp only
          exact ih rej (es.foldl insertEdit eds)

lemma as_edits_direct_nonff_abort (db : RefdbM) (n : RName) (target prev : Oid)
    (hfind : findEntry db.refs (db.ns ++ n) = some (.peeled prev))
    (hanc : db.anc target prev = .ok false) :
    as_edits db (.direct n target .abort) = .error (.nonFF (db.ns ++ n) target prev) := by
  unfold as_edits find_namespaced
  dsimp only
  rw [hfind]
  dsimp only
  rw [hanc]
  rfl

lemma as_edits_direct_nonff_reject (db : RefdbM) (n : RName) (target prev : Oid)
    (hfind : findEntry db.refs (db.ns ++ n) = some (.peeled prev))
    (hanc : db.anc target prev = .ok false) :
    as_edits db (.direct n target .reject) = .ok (.inl (.direct n target .reject)) := by
  unfold as_edits find_namespaced
  dsimp only
  rw [hfind]
  dsimp only
  rw [hanc]
  rfl

lemma as_edits_direct_ff (db : RefdbM) (n : RName) (target prev : Oid) (pol : Policy)
    (hfind : findEntry db.refs (db.ns ++ n) = some (.peeled prev))
    (hanc : db.anc target prev = .ok true) :
    as_edits db (.direct n target pol) =
      .ok (.inr [⟨db.ns ++ n, .mustExistAndMatch (.peeled prev), .peeled target,
        force_reflog n⟩]) := by
  unfold as_edits find_namespaced
  dsimp only
  rw [hfind]
  dsimp only
  rw [hanc]
  rfl

lemma collectEdits_all_ok (db : RefdbM) :
    ∀ (l : List UpdateM), (∀ v ∈ l, ∃ r, as_edits db v = .ok r) →
      ∀ eds, ∃ pr, collectEdits db l [] eds = .ok pr := by
  intro l
  induction l with
  | nil => intro _ eds; exact ⟨([], eds), rfl⟩
  | cons u t ih =>
      intro h eds
      obtain ⟨r, hr⟩ := h u (by simp)
      have ht : ∀ v ∈ t, ∃ r, as_edits db v = .ok r :=
        fun v hv => h v (List.mem_cons_of_mem u hv)
      rcases r with v | es
      · obtain ⟨pr, hpr⟩ := ih ht eds
        rw [collectEdits, hr]
        dsimp only
        rw [collectEdits_rej_acc, hpr]
        exact ⟨_, rfl⟩
      · obtain ⟨pr, hpr⟩ := ih ht (es.foldl insertEdit eds)
        rw [collectEdits, hr]
        dsimp only
        rw [hpr]
        exact ⟨pr, rfl⟩

/-- **C4.** A `Direct` update on an existing direct ref whose new target is a
fast-forward of the current tip (`is_in_ancestry_path` holds) produces the
fast-forward edit irrespective of its `no_ff` policy, and `Refdb::update`
commits it: the ref moves to the target and the update appears in
`Applied.updated`, with nothing rejected. -/
theorem refdb_update_ff_commits (db : RefdbM) (n : RName) (target prev : Oid)
    (pol : Policy)
    (hfind : findEntry db.refs (db.ns ++ n) = some (.peeled prev))
    (hanc : db.anc target prev = .ok true) :
    as_edits db (.direct n target pol) =
      .ok (.inr [⟨db.ns ++ n, .mustExistAndMatch (.peeled prev), .peeled target,
        force_reflog n⟩]) ∧
    refdb_update db [.direct n target pol] =
      .ok (⟨db.ns, setEntry db.refs (db.ns ++ n) (.peeled target), db.anc⟩,
        ⟨[], [.direct (db.ns ++ n) target]⟩) := by
  have he := as_edits_direct_ff db n target prev pol hfind hanc
  refine ⟨he, ?_⟩
  unfold refdb_update
  rw [show ([.direct n target pol] : List UpdateM) = [] ++ [.direct n target pol] from rfl,
    collectEdits_append]
  dsimp only [collectEdits]
  rw [he]
  dsimp only [collectEdits, List.foldl_cons, List.foldl_nil, insertEdit]
  rw [show (List.find? (fun e => decide (checkEdit db.refs e = false))
      [⟨db.ns ++ n, .mustExistAndMatch (.peeled prev), .peeled target, force_reflog n⟩])
      = none by
    rw [List.find?_cons_of_neg, List.find?_nil]
    simp [checkEdit, hfind]]
  dsimp only [List.foldl_cons, List.foldl_nil, applyEdit, List.map_cons, List.map_nil,
    toUpdated]

/-- Witness for C4: a one-ref store where the target is a fast-forward of the
tip; the update commits under the `Abort` policy. -/
theorem refdb_update_ff_commits_witness :
    refdb_update
        ⟨[], [([.str "refs", .str "heads", .str "m"], .peeled 1)],
          fun new old => .ok (decide (old ≤ new))⟩
        [.direct [.str "refs", .str "heads", .str "m"] 2 .abort] =
      .ok (⟨[], setEntry [([.str "refs", .str "heads", .str "m"], .peeled 1)]
          ([] ++ [.str "refs", .str "heads", .str "m"]) (.peeled 2),
          fun new old => .ok (decide (old ≤ new))⟩,
        ⟨[], [.direct ([] ++ [.str "refs", .str "heads", .str "m"]) 2]⟩) :=
  (refdb_update_ff_commits
    ⟨[], [([.str "refs", .str "heads", .str "m"], .peeled 1)],
      fun new old => .ok (decide (old ≤ new))⟩
    [.str "refs", .str "heads", .str "m"] 2 1 .abort (by simp [findEntry]) (by simp)).2

/-- The refname a committed change reports. -/
def updatedName : Updated → RName
  | .direct nm _ => nm
  | .symbolic nm _ => nm

lemma updatedName_toUpdated (e : RefEdit) : updatedName (toUpdated e) = e.name := by
  rcases e with ⟨nm, ex, tg, fr⟩
  cases tg <;> rfl

lemma mem_insertEdit {e x : RefEdit} :
    ∀ {eds : List RefEdit}, e ∈ insertEdit eds x → e = x ∨ e ∈ eds := by
  intro eds
  induction eds with
  | nil =>
      intro h
      simpa [insertEdit] using h
  | cons y ys ih =>
      intro h
      rw [insertEdit] at h
      by_cases hy : y.name = x.name
      · rw [if_pos hy] at h
        rcases List.mem_cons.mp h with h1 | h1
        · exact Or.inl h1
        · exact Or.inr (List.mem_cons_of_mem _ h1)
      · rw [if_neg hy] at h
        rcases List.mem_cons.mp h with h1 | h1
        · exact Or.inr (h1 ▸ List.mem_cons_self _ _)
        · rcases ih h1 with h2 | h2
          · exact Or.inl h2
          · exact Or.inr (List.mem_cons_of_mem _ h2)

lemma mem_foldl_insertEdit {e : RefEdit} :
    ∀ {es eds : List RefEdit}, e ∈ List.foldl insertEdit eds es → e ∈ eds ∨ e ∈ es := by
  intro es
  induction es with
  | nil => intro eds h; exact Or.inl h
  | cons x xs ih =>
      intro eds h
      rw [List.foldl_cons] at h
      rcases ih h with h1 | h1
      · rcases mem_insertEdit h1 with h2 | h2
        · exact Or.inr (h2 ▸ List.mem_cons_self _ _)
        · exact Or.inl h2
      · exact Or.inr (List.mem_cons_of_mem _ h1)

lemma as_edits_direct_name (db : RefdbM) (m : RName) (t : Oid) (pol : Policy)
    (es : List RefEdit) (h : as_edits db (.direct m t pol) = .ok (.inr es)) :
    ∀ e ∈ es, e.name = db.ns ++ m := by
  intro e he
  unfold as_edits find_namespaced at h
  dsimp only at h
  rcases hf : findEntry db.refs (db.ns ++ m) with _ | tgt <;> rw [hf] at h <;>
    (try dsimp only at h)
  · cases h
    simp only [List.mem_singleton] at he
    subst he
    rfl
  · rcases tgt with o | s
    · dsimp only at h
      rcases ha : db.anc t o with e1 | isFF <;> rw [ha] at h <;> dsimp only at h
      · exact absurd h (by simp)
      · cases isFF
        · rw [if_neg (by simp)] at h
          cases pol
          · exact absurd h (by simp)
          · exact absurd h (by simp)
          · dsimp only at h
            cases h
            simp only [List.mem_singleton] at he
            subst he
            rfl
        · rw [if_pos rfl] at h
          cases h
          simp only [List.mem_singleton] at he
          subst he
          rfl
    · dsimp only at h
      rcases hr : resolvePeeled db.refs (db.refs.length + 1) s with _ | o <;>
        rw [hr] at h <;> dsimp only at h
      · exact absurd h (by simp)
      · rcases ha : db.anc t o with e1 | isFF <;> rw [ha] at h <;> dsimp only at h
        · exact absurd h (by simp)
        · cases isFF
          · rw [if_neg (by simp)] at h
            cases pol
            · exact absurd h (by simp)
            · exact absurd h (by simp)
            · dsimp only at h
              cases h
              simp only [List.mem_singleton] at he
              subst he
              rfl
          · rw [if_pos rfl] at h
            cases h
            simp only [List.mem_singleton] at he
            subst he
            rfl

lemma collectEdits_direct_names (db : RefdbM) :
    ∀ (l rej : List UpdateM) (eds : List RefEdit) (pr : List UpdateM × List RefEdit),
      (∀ v ∈ l, ∃ m t pol, v = .direct m t pol) →
      collectEdits db l rej eds = .ok pr →
      ∀ e ∈ pr.2, e ∈ eds ∨
        ∃ m t pol, UpdateM.direct m t pol ∈ l ∧ e.name = db.ns ++ m := by
  intro l
  induction l with
  | nil =>
      intro rej eds pr _ h e he
      rw [collectEdits] at h
      cases h
      exact Or.inl he
  | cons u tl ih =>
      intro rej eds pr hdir h e he
      obtain ⟨m, tt, pol, rfl⟩ := hdir _ (List.mem_cons_self u tl)
      rw [collectEdits] at h
      rcases ha : as_edits db (.direct m tt pol) with e1 | v <;> rw [ha] at h <;>
        (try dsimp only at h)
      · exact absurd h (by simp)
      · rcases v with v | es
        · dsimp only at h
          rcases ih (rej ++ [v]) eds pr
              (fun w hw => hdir w (List.mem_cons_of_mem _ hw)) h e he with h1 | h1
          · exact Or.inl h1
          · obtain ⟨m1, t1, p1, hmem, hname⟩ := h1
            exact Or.inr ⟨m1, t1, p1, List.mem_cons_of_mem _ hmem, hname⟩
        · dsimp only at h
          rcases ih rej (es.foldl insertEdit eds) pr
              (fun w hw => hdir w (List.mem_cons_of_mem _ hw)) h e he with h1 | h1
          · rcases mem_foldl_insertEdit h1 with h2 | h2
            · exact Or.inl h2
            · exact Or.inr ⟨m, tt, pol, List.mem_cons_self _ _,
                as_edits_direct_name db m tt pol es ha e h2⟩
          · obtain ⟨m1, t1, p1, hmem, hname⟩ := h1
            exact Or.inr ⟨m1, t1, p1, List.mem_cons_of_mem _ hmem, hname⟩

/-- **C3.** A `Direct` update on an existing direct ref whose target is not a
fast-forward of the current tip, in a transaction alongside other updates:
with the `Abort` policy the entire transaction fails with the `NonFF` error
(nothing is applied — `update` returns no new state); with `Reject`, the
update lands in `Applied.rejected` while the remaining updates commit exactly
as they would without it (same final store, same `Applied.updated`), and —
when every other update is a `Direct` on a different name — no entry of
`Applied.updated` carries this update's refname. -/
theorem refdb_update_nonff_policies (db : RefdbM) (pre post : List UpdateM)
    (n : RName) (target prev : Oid)
    (hfind : findEntry db.refs (db.ns ++ n) = some (.peeled prev))
    (hanc : db.anc target prev = .ok false)
    (hpre : ∀ v ∈ pre, ∃ r, as_edits db v = .ok r) :
    (refdb_update db (pre ++ .direct n target .abort :: post) =
      .error (.nonFF (db.ns ++ n) target prev)) ∧
    (∀ db1 ap, refdb_update db (pre ++ post) = .ok (db1, ap) →
      ∃ r1 r2, ap.rejected = r1 ++ r2 ∧
        refdb_update db (pre ++ .direct n target .reject :: post) =
          .ok (db1, ⟨r1 ++ .direct n target .reject :: r2, ap.updated⟩) ∧
        ((∀ v ∈ pre ++ post, ∃ m t pol, v = .direct m t pol ∧ m ≠ n) →
          ∀ e ∈ ap.updated, updatedName e ≠ db.ns ++ n)) := by
  obtain ⟨⟨rp, ep⟩, hp⟩ := collectEdits_all_ok db pre hpre []
  constructor
  · unfold refdb_update
    rw [collectEdits_append, hp]
    dsimp only
    rw [collectEdits, as_edits_direct_nonff_abort db n target prev hfind hanc]
  · intro db1 ap h
    unfold refdb_update at h
    rw [collectEdits_append, hp] at h
    dsimp only at h
    rw [collectEdits_rej_acc] at h
    rcases hq : collectEdits db post [] ep with e1 | rqeq <;> rw [hq] at h <;>
      dsimp only at h
    · exact absurd h (by simp)
    · obtain ⟨rq, eq1⟩ := rqeq
      dsimp only at h
      rcases hfq : eq1.find? (fun e => decide (checkEdit db.refs e = false)) with _ | bad <;>
        rw [hfq] at h <;> dsimp only at h
      swap
      · exact absurd h (by simp)
      · injection h with h2
        injection h2 with hdb hap
        subst hdb
        subst hap
        refine ⟨rp, rq, rfl, ?_, ?_⟩
        · unfold refdb_update
          rw [collectEdits_append, hp]
          dsimp only
          rw [collectEdits, as_edits_direct_nonff_reject db n target prev hfind hanc]
          dsimp only
          rw [collectEdits_rej_acc, hq]
          dsimp only
          rw [hfq]
          dsimp only
          simp [List.append_assoc]
        · intro hnames e he
          simp only [List.mem_map] at he
          obtain ⟨ed, hed, rfl⟩ := he
          rw [updatedName_toUpdated]
          have hdirpost : ∀ v ∈ post, ∃ m t pol, v = UpdateM.direct m t pol := by
            intro v hv
            obtain ⟨m, t, p, heq, _⟩ := hnames v (List.mem_append_right pre hv)
            exact ⟨m, t, p, heq⟩
          have hdirpre : ∀ v ∈ pre, ∃ m t pol, v = UpdateM.direct m t pol := by
            intro v hv
            obtain ⟨m, t, p, heq, _⟩ := hnames v (List.mem_append_left post hv)
            exact ⟨m, t, p, heq⟩
          rcases collectEdits_direct_names db post [] ep (rq, eq1) hdirpost hq ed hed
            with h5 | ⟨m, t1, p1, hmem, hname⟩
          · rcases collectEdits_direct_names db pre [] [] (rp, ep) hdirpre hp ed h5
              with h6 | ⟨m, t1, p1, hmem, hname⟩
            · simp at h6
            · obtain ⟨m2, t2, p2, heq, hne⟩ := hnames _ (List.mem_append_left post hmem)
              injection heq with hm _ _
              subst hm
              rw [hname]
              intro hcon
              exact hne (List.append_cancel_left hcon)
          · obtain ⟨m2, t2, p2, heq, hne⟩ := hnames _ (List.mem_append_right pre hmem)
            injection heq with hm _ _
            subst hm
            rw [hname]
            intro hcon
            exact hne (List.append_cancel_left hcon)

/-- Witness for C3: a two-update transaction on a one-ref store whose second
update is a non-fast-forward `Direct`: with `Abort` the whole transaction
fails with `NonFF`; with `Reject` the update is rejected while the other
update (a ref creation) still commits. -/
theorem refdb_update_nonff_policies_witness :
    (refdb_update
        ⟨[], [([.str "refs", .str "heads", .str "m"], .peeled 3)],
          fun new old => .ok (decide (old ≤ new))⟩
        ([.direct [.str "refs", .str "heads", .str "x"] 5 .allow] ++
          .direct [.str "refs", .str "heads", .str "m"] 1 .abort :: []) =
      .error (.nonFF ([] ++ [.str "refs", .str "heads", .str "m"]) 1 3)) ∧
    (∃ r1 r2,
      ([] : List UpdateM) = r1 ++ r2 ∧
      refdb_update
          ⟨[], [([.str "refs", .str "heads", .str "m"], .peeled 3)],
            fun new old => .ok (decide (old ≤ new))⟩
          ([.direct [.str "refs", .str "heads", .str "x"] 5 .allow] ++
            .direct [.str "refs", .str "heads", .str "m"] 1 .reject :: []) =
        .ok (⟨[], setEntry [([.str "refs", .str "heads", .str "m"], .peeled 3)]
            ([] ++ [.str "refs", .str "heads", .str "x"]) (.peeled 5),
            fun new old => .ok (decide (old ≤ new))⟩,
          ⟨r1 ++ .direct [.str "refs", .str "heads", .str "m"] 1 .reject :: r2,
            [.direct ([] ++ [.str "refs", .str "heads", .str "x"]) 5]⟩) ∧
      ((∀ v ∈ ([.direct [.str "refs", .str "heads", .str "x"] 5 .allow] ++
            ([] : List UpdateM)), ∃ m t pol, v = .direct m t pol ∧
            m ≠ [.str "refs", .str "heads", .str "m"]) →
        ∀ e ∈ [Updated.direct ([] ++ [.str "refs", .str "heads", .str "x"]) 5],
          updatedName e ≠ [] ++ [.str "refs", .str "heads", .str "m"])) := by
  have h := refdb_update_nonff_policies
    ⟨[], [([.str "refs", .str "heads", .str "m"], .peeled 3)],
      fun new old => .ok (decide (old ≤ new))⟩
    [.direct [.str "refs", .str "heads", .str "x"] 5 .allow] []
    [.str "refs", .str "heads", .str "m"] 1 3
    (by simp [findEntry]) (by simp)
    (by
      intro v hv
      simp only [List.mem_singleton] at hv
      subst hv
      exact ⟨_, rfl⟩)
  refine ⟨h.1, ?_⟩
  have h2 := h.2
    ⟨[], setEntry [([.str "refs", .str "heads", .str "m"], .peeled 3)]
        ([] ++ [.str "refs", .str "heads", .str "x"]) (.peeled 5),
      fun new old => .ok (decide (old ≤ new))⟩
    ⟨[], [.direct ([] ++ [.str "refs", .str "heads", .str "x"]) 5]⟩
    (by rfl)
  obtain ⟨r1, r2, hr, he, hn⟩ := h2
  exact ⟨r1, r2, hr, he, hn⟩

/-! ## C1/C2 — the negotiation steps `ForClone::prepare` and `Fetch` -/

/-- A `FilteredRef` as the steps read it: the advertised refname, its tip and
the resolved remote-peer scope (always set after construction). -/
structure FRef : Type where
  name : RName
  tip : Oid
  remoteId : PeerId
deriving DecidableEq

/-- Modelled from the spec: the byte-string `remote_tracking` of the `refs`
module (absent from the source tree), used by the steps' `prepare`: "if the
input is already `refs/remotes/<any>/<cat>/<rest>`, replace `<any>` with the
given peer; … otherwise prepend `refs/remotes/<peer>/` and preserve the
rest". -/
def remoteTrackingName (p : PeerId) (n : RName) : RName :=
  match n with
  | .str "refs" :: .str "remotes" :: _ :: rest =>
      .str "refs" :: .str "remotes" :: .pid p :: rest
  | .str "refs" :: rest => .str "refs" :: .str "remotes" :: .pid p :: rest
  | _ => n

/-- Modelled from the spec: `mk_ref_update` of the `peek` module (absent from
the source tree): "emit one `Direct` update per retained ref", targeting the
ref's remote-tracking name at its advertised tip.  The `no_ff` policy of
these identity-layer updates is not specified; the claims do not depend on
it. -/
def mkRefUpdate (r : FRef) : Option UpdateM :=
  some (.direct (remoteTrackingName r.remoteId r.name) r.tip .abort)

/-- `FetchState` (state.rs): the speculative per-run tips — identity tips,
delegation tips, and sigref tips (`idts`, `dels`, `sigs`). -/
structure FetchStateM : Type where
  idts : List (PeerId × Oid)
  dels : List (PeerId × List (Urn × Oid))
  sigs : List (PeerId × Oid)

/-- `FetchState::id_tip`. -/
def id_tip (st : FetchStateM) (of : PeerId) : Option Oid := findEntry st.idts of

/-- `FetchState::lookup_delegations`: the resolver over the delegation tips
captured for `remote` during the same step. -/
def lookup_delegations (st : FetchStateM) (remote : PeerId) : Urn → Option Oid :=
  fun u => (findEntry st.dels remote).bind (fun m => findEntry m u)

/-- The face of a `VerifiedIdentity` the steps read: its resolved delegate
keys. -/
structure VerifiedId : Type where
  delegateIds : List PeerId
deriving DecidableEq

/-- Result of a step's `prepare`: the updates, a verification error
(`error::Prepare::Verification`), or the `expect` panic on a missing id tip. -/
inductive PrepRes : Type where
  | ok (ups : List UpdateM)
  | verificationErr (msg : String)
  | panicked
deriving DecidableEq

/-- `ForClone::prepare` (peek/clone.rs): verify the identity at the captured
`rad/id` tip of the remote (the source `expect`s the tip, panicking if
`pre_validate` did not run), resolving delegations from the tips captured in
the same step; if the **remote** peer is a member of the verified identity's
`delegate_ids`, emit one update per retained ref via `mk_ref_update`,
otherwise return no updates. -/
def clonePrepare (remote : PeerId) (st : FetchStateM)
    (verify : Oid → (Urn → Option Oid) → Except String VerifiedId)
    (refs : List FRef) : PrepRes :=
  match id_tip st remote with
  | none => .panicked
  | some tip =>
    match verify tip (lookup_delegations st remote) with
    | .error e => .verificationErr e
    | .ok vid =>
      if remote ∈ vid.delegateIds then .ok (refs.filterMap mkRefUpdate)
      else .ok []

/-- Claim C1 as stated: `ForClone::prepare` keys the dry-run decision on the
**local** peer id's membership in the verified identity's delegate set. -/
def clone_prepare_local_delegate_claim : Prop :=
  ∀ (localId remote : PeerId) (st : FetchStateM)
    (verify : Oid → (Urn → Option Oid) → Except String VerifiedId)
    (refs : List FRef) (tip : Oid) (vid : VerifiedId),
    id_tip st remote = some tip →
    verify tip (lookup_delegations st remote) = .ok vid →
    ((localId ∉ vid.delegateIds → clonePrepare remote st verify refs = .ok []) ∧
     (localId ∈ vid.delegateIds →
       clonePrepare remote st verify refs = .ok (refs.filterMap mkRefUpdate)))

/-- **C1 counterexample.** With the local peer (`0`) a delegate but the
cloned-from remote (`1`) not, and one retained ref, the claim predicts one
`Direct` update while `ForClone::prepare` — which tests
`delegate_ids().contains(&self.remote_id)` — returns none. -/
theorem clone_prepare_counterexample : ¬ clone_prepare_local_delegate_claim := by
  intro h
  have hc := (h 0 1 ⟨[(1, 9)], [], []⟩ (fun _ _ => .ok ⟨[0]⟩)
      [⟨[.str "refs", .str "rad", .str "id"], 5, 1⟩] 9 ⟨[0]⟩ rfl rfl).2 (by simp)
  rw [show clonePrepare 1 ⟨[(1, 9)], [], []⟩ (fun _ _ => .ok ⟨[0]⟩)
      [⟨[.str "refs", .str "rad", .str "id"], 5, 1⟩] = .ok [] from rfl] at hc
  exact absurd hc (by decide)

/-- **C1 (amended).** In `ForClone::prepare`, after verifying the identity at
the captured `rad/id` tip (resolving delegations from the tips captured in
the same step), if the **remote** peer id — the peer being cloned from — is
not a member of the verified identity's `delegate_ids`, `prepare` returns an
empty list of updates (dry run); otherwise it returns one `Direct` update per
retained ref. -/
theorem clone_prepare_remote_delegate (remote : PeerId) (st : FetchStateM)
    (verify : Oid → (Urn → Option Oid) → Except String VerifiedId)
    (refs : List FRef) (tip : Oid) (vid : VerifiedId)
    (htip : id_tip st remote = some tip)
    (hv : verify tip (lookup_delegations st remote) = .ok vid) :
    (remote ∉ vid.delegateIds → clonePrepare remote st verify refs = .ok []) ∧
    (remote ∈ vid.delegateIds →
      clonePrepare remote st verify refs = .ok (refs.filterMap mkRefUpdate)) ∧
    (refs.filterMap mkRefUpdate).length = refs.length := by
  have hlen : ∀ (l : List FRef), (l.filterMap mkRefUpdate).length = l.length := by
    intro l
    induction l with
    | nil => rfl
    | cons a t ih => simp [mkRefUpdate, List.filterMap_cons, ih]
  unfold clonePrepare
  rw [htip]
  dsimp only
  rw [hv]
  dsimp only
  refine ⟨?_, ?_, hlen refs⟩
  · intro hmem
    rw [if_neg hmem]
  · intro hmem
    rw [if_pos hmem]

/-- Witness for C1 (amended): remote `1` is the sole delegate, one retained
ref yields one update; with delegate set `{2}` the same input yields none. -/
theorem clone_prepare_remote_delegate_witness :
    (clonePrepare 1 ⟨[(1, 9)], [], []⟩ (fun _ _ => .ok ⟨[1]⟩)
        [⟨[.str "refs", .str "rad", .str "id"], 5, 1⟩] =
      .ok ([⟨[.str "refs", .str "rad", .str "id"], 5, 1⟩].filterMap mkRefUpdate)) ∧
    (clonePrepare 1 ⟨[(1, 9)], [], []⟩ (fun _ _ => .ok ⟨[2]⟩)
        [⟨[.str "refs", .str "rad", .str "id"], 5, 1⟩] = .ok []) :=
  ⟨((clone_prepare_remote_delegate 1 ⟨[(1, 9)], [], []⟩ (fun _ _ => .ok ⟨[1]⟩)
      [⟨[.str "refs", .str "rad", .str "id"], 5, 1⟩] 9 ⟨[1]⟩ rfl rfl).2.1 (by decide)),
   ((clone_prepare_remote_delegate 1 ⟨[(1, 9)], [], []⟩ (fun _ _ => .ok ⟨[2]⟩)
      [⟨[.str "refs", .str "rad", .str "id"], 5, 1⟩] 9 ⟨[2]⟩ rfl rfl).1 (by decide))⟩

/-- Modelled from the spec: the identity-layer part of the ref-name parser
`refs::parse` (the `refs` module is absent from the source tree): a parsed
ref is "an optional remote peer and either a `Rad { Id | Ids{urn} |
SignedRefs | Self | … }` identity-layer ref or a `Refs { cat ∈
{Heads,Notes,Tags,Unknown(_)}, name }` data ref". -/
inductive RadRefM : Type
  | id
  | ids (urn : Comp)
  | selfRef
  | signedRefs
  | otherRad
deriving DecidableEq

/-- A parsed data ref: its category string and remaining name components. -/
structure DataRefM : Type where
  cat : String
  name : List Comp
deriving DecidableEq

/-- A parsed ref (`refs::Parsed`). -/
structure ParsedM : Type where
  remote : Option PeerId
  inner : Sum RadRefM DataRefM
deriving DecidableEq

/-- Modelled from the spec: parse the owned part of a refname (after `refs/`
and any `remotes/<peer>/`): `rad/…` identity refs or `<cat>/<name>` data
refs. -/
def parseOwnedRef : List Comp → Option (Sum RadRefM DataRefM)
  | [.str "rad", .str "id"] => some (.inl .id)
  | [.str "rad", .str "ids", u] => some (.inl (.ids u))
  | [.str "rad", .str "self"] => some (.inl .selfRef)
  | [.str "rad", .str "signed_refs"] => some (.inl .signedRefs)
  | .str "rad" :: _ => some (.inl .otherRad)
  | .str c :: rest => if rest.isEmpty then none else some (.inr ⟨c, rest⟩)
  | _ => none

/-- Modelled from the spec: `refs::parse`: split off an optional
`refs/remotes/<peer>/` prefix, then parse the owned remainder. -/
def parseRef (n : RName) : Option ParsedM :=
  match n with
  | .str "refs" :: .str "remotes" :: .pid p :: rest =>
      (parseOwnedRef rest).map (fun i => ⟨some p, i⟩)
  | .str "refs" :: rest => (parseOwnedRef rest).map (fun i => ⟨none, i⟩)
  | _ => none

/-- The data-fetch step `Fetch` (fetch.rs): the local id, the peer being
fetched from, and the combined signed refs driving the step. -/
structure FetchStep : Type where
  local_id : PeerId
  remote_id : PeerId
  signed_refs : CombinedM

/-- `Fetch::is_tracked`: membership in the combined flattened remotes. -/
def fetch_is_tracked (f : FetchStep) (id : PeerId) : Bool :=
  decide (id ∈ f.signed_refs.remotes)

/-- `Fetch::signed`: the signed tip of `(peer, refname)`, if any. -/
def fetch_signed (f : FetchStep) (id : PeerId) (refname : RName) : Option Oid :=
  (findEntry f.signed_refs.refs id).bind (fun r => findEntry r.refs refname)

/-- `Fetch::is_signed`. -/
def fetch_is_signed (f : FetchStep) (id : PeerId) (refname : RName) : Bool :=
  (fetch_signed f id refname).isSome

/-- `Fetch::ref_filter` (fetch.rs): keep only known data categories
(`Heads|Notes|Tags`; unknown categories are warned and dropped, identity refs
ignored); default the peer to the immediate remote; retain the ref iff its
resolved peer is tracked or the exact `(peer, refname)` pair is signed. -/
def fetchRefFilter (f : FetchStep) (a : AdvRef) : Option FRef :=
  match parseRef a.name with
  | none => none
  | some parsed =>
    match parsed.inner with
    | .inl _ => none
    | .inr d =>
      if d.cat = "heads" ∨ d.cat = "notes" ∨ d.cat = "tags" then
        if fetch_is_tracked f (parsed.remote.getD f.remote_id) ||
            fetch_is_signed f (parsed.remote.getD f.remote_id)
              (.str "refs" :: .str d.cat :: d.name) then
          some ⟨a.name, a.tip, parsed.remote.getD f.remote_id⟩
        else none
      else none

/-- `Fetch::prepare` (fetch.rs): one forced (`Policy::Allow`) `Direct` update
on the remote-tracking ref per retained ref.  The source carries
`debug_assert!(r.remote_id != self.local_id, "never touch our own")` here. -/
def fetchPrepare (f : FetchStep) (refs : List FRef) : List UpdateM :=
  refs.map (fun r => .direct (remoteTrackingName r.remoteId r.name) r.tip .allow)

/-- **C2 (violated by the code).**  At the failing input — the local peer `0`
occurs in the combined `remotes` set (reachable whenever another peer's
signed refs track us) and the remote advertises
`refs/remotes/<local>/heads/main` — `Fetch::ref_filter` retains the
local-scoped ref (the tracked-peer rule fires for the local peer),
`Fetch::prepare` emits a `Direct{Allow}` update on it in violation of the
code's own `debug_assert!(r.remote_id != self.local_id)`, and the update
commits through `Refdb::update`, creating the local-scoped ref.  -/
theorem fetch_step_local_scoped_update :
    (fetchRefFilter ⟨0, 1, ⟨[], [0]⟩⟩
        ⟨[.str "refs", .str "remotes", .pid 0, .str "heads", .str "main"], 42⟩ =
      some ⟨[.str "refs", .str "remotes", .pid 0, .str "heads", .str "main"], 42, 0⟩) ∧
    ((⟨[.str "refs", .str "remotes", .pid 0, .str "heads", .str "main"], 42, 0⟩
        : FRef).remoteId = (⟨0, 1, ⟨[], [0]⟩⟩ : FetchStep).local_id) ∧
    (fetchPrepare ⟨0, 1, ⟨[], [0]⟩⟩
        [⟨[.str "refs", .str "remotes", .pid 0, .str "heads", .str "main"], 42, 0⟩] =
      [.direct [.str "refs", .str "remotes", .pid 0, .str "heads", .str "main"] 42 .allow]) ∧
    (refdb_update ⟨[], [], fun _ _ => .ok true⟩
        [.direct [.str "refs", .str "remotes", .pid 0, .str "heads", .str "main"] 42 .allow] =
      .ok (⟨[], [([.str "refs", .str "remotes", .pid 0, .str "heads", .str "main"],
            .peeled 42)], fun _ _ => .ok true⟩,
        ⟨[], [.direct [.str "refs", .str "remotes", .pid 0, .str "heads", .str "main"] 42]⟩)) :=
  ⟨rfl, rfl, rfl, by rfl⟩

end Link
